import Mathlib

/-!
Verification of the ppopgi-cache-worker GraphQL caching worker.

The development shallowly embeds the worker's core (src/index.ts, together
with the earlier iteration kept as an unnamed source file) into Lean:

* JavaScript JSON-like values are the inductive type `Json`; JS numbers are
  `JsNum` (finite values as rationals, plus `nan` / `posInf` / `negInf`).
* `canonicalStringify`, `clampPagination`, `pickTtlSeconds`,
  `cacheControlEdgeOnly`, `isAbortTimeout` and the in-flight computation
  body are translated function by function from the source.
* The identity-based cycle guard of `canonicalStringify` is additionally
  modelled on an explicit heap of addressed nodes (`GStore`), where object
  identity and sharing are observable.
* The per-isolate coalescing of concurrent requests is modelled as a
  labelled transition system (`WStep` / `WExec`) whose atomic steps are the
  uninterrupted segments between `await` suspension points of the worker's
  `fetch` handler.

Abstractions (noted where used): SHA-256 hashing is dropped from the cache
key (the key is the canonical string itself, which preserves the
determinism and input-sensitivity structure the claims are about), JS
float formatting is replaced by a deterministic rational rendering, and
`toLowerCase` is modelled on ASCII as in Lean's `Char.toLower`.
-/

namespace Ppopgi

/-- JavaScript numbers: finite doubles are modelled as rationals, and the
three non-finite values are explicit. `Number.isFinite` is `JsNum.finite`. -/
inductive JsNum where
  | nan
  | posInf
  | negInf
  | val (q : ℚ)
deriving DecidableEq

/-- `Number.isFinite`. -/
def JsNum.finite : JsNum → Bool
  | .val _ => true
  | _ => false

/-- JSON-like JavaScript values. Objects are insertion-ordered association
lists, as delivered by `Object.keys`. -/
inductive Json where
  | null
  | bool (b : Bool)
  | num (n : JsNum)
  | str (s : String)
  | arr (xs : List Json)
  | obj (fields : List (String × Json))

/-- `typeof v === "object" && v !== null` (arrays included). -/
def Json.isComposite : Json → Bool
  | .arr _ => true
  | .obj _ => true
  | _ => false

-- ---------------------------------------------------------------------
-- String helpers shared by several source functions
-- ---------------------------------------------------------------------

/-- `String.prototype.toLowerCase`, modelled on ASCII via `Char.toLower`
(characterwise on the underlying character list). -/
def lowerStr (s : String) : String := String.mk (s.data.map Char.toLower)

/-- Does `l` contain `pat` as a contiguous run (`String.prototype.includes`
on the underlying character lists)? -/
def hasSubAux (pat : List Char) : List Char → Bool
  | [] => pat.isEmpty
  | c :: t => pat.isPrefixOf (c :: t) || hasSubAux pat t

/-- `s.includes(pat)` for strings. -/
def strIncludes (s pat : String) : Bool := hasSubAux pat.toList s.toList

-- ---------------------------------------------------------------------
-- TTL policy (src/index.ts `pickTtlSeconds`, and the earlier iteration's
-- two-argument variant from the unnamed source file)
-- ---------------------------------------------------------------------

def DEFAULT_TTL_SECONDS : Nat := 5

/-- src/index.ts `pickTtlSeconds(query)`. -/
def pickTtlSeconds (query : String) : Nat :=
  let q := lowerStr query
  if strIncludes q "globalfeed" || strIncludes q "raffleevents" then 3
  else if strIncludes q "_meta" || strIncludes q "__meta" then 3
  else if strIncludes q "rafflebyid" || strIncludes q "raffle(" ||
          strIncludes q "raffleparticipants" then 10
  else DEFAULT_TTL_SECONDS

/-- The earlier iteration's `pickTtlSeconds(query, variables)` from the
unnamed source file; it receives the variables but never inspects them. -/
def pickTtlSecondsV1 (query : String) (vars : Json) : Nat :=
  let _ := vars
  let q := lowerStr query
  if strIncludes q "globalfeed" || strIncludes q "raffleevents" then 3
  else if strIncludes q "raffleparticipants" then 5
  else DEFAULT_TTL_SECONDS

-- ---------------------------------------------------------------------
-- Cache-control directive (src/index.ts `cacheControlEdgeOnly`)
-- ---------------------------------------------------------------------

/-- src/index.ts `cacheControlEdgeOnly(ttl)`. TTLs in the worker are
positive integers, so `ttl` is a `Nat`. -/
def cacheControlEdgeOnly (ttl : Nat) : String :=
  "public, max-age=0, s-maxage=" ++ toString ttl ++
    ", stale-while-revalidate=" ++ toString ttl

/-- The earlier iteration's `withCacheHeaders` cache-control value from the
unnamed source file (browser-facing `max-age=ttl`, no edge directive). -/
def cacheControlV1 (ttl : Nat) : String :=
  "public, max-age=" ++ toString ttl

-- ---------------------------------------------------------------------
-- Upstream error classification (src/index.ts `isAbortTimeout`,
-- `fetchWithTimeout`)
-- ---------------------------------------------------------------------

/-- A JavaScript error reaching the worker's catch blocks. `message` is
what `String(e?.message ?? e ?? "")` evaluates to; `aborted` records
whether the error came from an `AbortController` abort (the classifier
never looks at it, which is part of what claim C9 is about). -/
structure JsErr where
  message : String
  aborted : Bool
deriving DecidableEq

/-- src/index.ts `isAbortTimeout(e)`. -/
def isAbortTimeout (e : JsErr) : Bool :=
  strIncludes (lowerStr e.message) "timeout"

/-- The error `fetchWithTimeout` aborts with on deadline:
`ac.abort(new Error("timeout"))`. -/
def timeoutError : JsErr := { message := "timeout", aborted := true }

-- ---------------------------------------------------------------------
-- JSON.stringify (on the plain trees produced by the canonicalizer's
-- helper; JS float formatting is abstracted to a deterministic rational
-- rendering, and string escaping covers the quote and backslash)
-- ---------------------------------------------------------------------

def escChar (c : Char) : String :=
  if c = '"' then "\\\"" else if c = '\\' then "\\\\" else String.singleton c

def encodeStr (s : String) : String :=
  "\"" ++ String.join (s.toList.map escChar) ++ "\""

/-- `JSON.stringify` renders the non-finite numbers as `null`. -/
def numRender : JsNum → String
  | .nan => "null"
  | .posInf => "null"
  | .negInf => "null"
  | .val q => if q.den = 1 then toString q.num else toString q.num ++ "/" ++ toString q.den

mutual

def stringify : Json → String
  | .null => "null"
  | .bool b => if b then "true" else "false"
  | .num n => numRender n
  | .str s => encodeStr s
  | .arr xs => "[" ++ stringifyElems xs ++ "]"
  | .obj fs => "\x7b" ++ stringifyFields fs ++ "\x7d"

def stringifyElems : List Json → String
  | [] => ""
  | [x] => stringify x
  | x :: y :: xs => stringify x ++ "," ++ stringifyElems (y :: xs)

def stringifyFields : List (String × Json) → String
  | [] => ""
  | [kv] => encodeStr kv.1 ++ ":" ++ stringify kv.2
  | kv :: kw :: rest =>
      encodeStr kv.1 ++ ":" ++ stringify kv.2 ++ "," ++ stringifyFields (kw :: rest)

end

-- ---------------------------------------------------------------------
-- Canonicalizer (src/index.ts `canonicalStringify`)
--
-- On a tree of freshly constructed, pairwise distinct nodes — which is
-- what every `Json` value denotes — the identity-based `seen` WeakSet
-- never fires, so the helper reduces to: sort each object's keys, then
-- recurse into the values in sorted order. The guard itself is modelled
-- separately on the addressed-heap embedding below (`gHelperRef`), where
-- identity and sharing are observable.
-- ---------------------------------------------------------------------

def keyLe (p q : String × Json) : Prop := p.1 ≤ q.1

instance : DecidableRel keyLe := fun p q => inferInstanceAs (Decidable (p.1 ≤ q.1))

/-- `Object.keys(v).sort()`: entries reordered by ascending key (stable,
comparing keys only). -/
def sortFields (fs : List (String × Json)) : List (String × Json) :=
  fs.insertionSort keyLe

theorem perm_sizeOf_eq {α : Type} [SizeOf α] {l₁ l₂ : List α} (h : l₁.Perm l₂) :
    sizeOf l₁ = sizeOf l₂ := by
  induction h with
  | nil => rfl
  | cons x _ ih => simp [ih]
  | swap x y l => simp; omega
  | trans _ _ ih₁ ih₂ => omega

theorem sizeOf_sortFields (fs : List (String × Json)) :
    sizeOf (sortFields fs) = sizeOf fs :=
  perm_sizeOf_eq (List.perm_insertionSort keyLe fs)

mutual

/-- The recursive `helper` of `canonicalStringify`: scalars pass through,
arrays map, objects are rebuilt with keys in sorted order. -/
def canonHelper : Json → Json
  | .null => .null
  | .bool b => .bool b
  | .num n => .num n
  | .str s => .str s
  | .arr xs => .arr (canonHelperList xs)
  | .obj fs => .obj (canonHelperFields (sortFields fs))
termination_by v => sizeOf v
decreasing_by
  all_goals simp_wf
  all_goals try rw [sizeOf_sortFields]
  all_goals omega

def canonHelperList : List Json → List Json
  | [] => []
  | x :: xs => canonHelper x :: canonHelperList xs
termination_by xs => sizeOf xs
decreasing_by
  all_goals simp_wf
  all_goals omega

def canonHelperFields : List (String × Json) → List (String × Json)
  | [] => []
  | kv :: rest => (kv.1, canonHelper kv.2) :: canonHelperFields rest
termination_by fs => sizeOf fs
decreasing_by
  all_goals simp_wf
  all_goals try (cases kv; simp)
  all_goals omega

end

/-- src/index.ts `canonicalStringify(value)`. -/
def canonicalStringify (value : Json) : String :=
  stringify (canonHelper value)

-- ---------------------------------------------------------------------
-- Variable clamper (src/index.ts `clampPagination`, `clampInt`)
-- ---------------------------------------------------------------------

/-- `Math.trunc`: round toward zero. -/
def jsTrunc (q : ℚ) : ℤ := if 0 ≤ q then ⌊q⌋ else ⌈q⌉

/-- src/index.ts `clampInt(n, min, max)`; a non-finite `n` maps to `min`. -/
def clampInt (n : JsNum) (lo hi : ℤ) : JsNum :=
  match n with
  | .val q => .val ((min (max (jsTrunc q) lo) hi : ℤ) : ℚ)
  | _ => .val (lo : ℚ)

/-- The key test of the ids clamp: `k === "ids" || k.endsWith("Ids")`. -/
def isIdsKey (k : String) : Bool := k == "ids" || k.endsWith "Ids"

mutual

/-- The recursive `walk` of `clampPagination`. Scalars and non-object
values are left alone; objects have each entry clamped by key. -/
def clampWalk : Json → Json
  | .obj fs => .obj (clampWalkFields fs)
  | .arr xs => .arr (clampWalkElems xs)
  | v => v
termination_by v => (sizeOf v, 0)

def clampWalkFields : List (String × Json) → List (String × Json)
  | [] => []
  | kv :: rest => (kv.1, clampEntry kv.1 kv.2) :: clampWalkFields rest
termination_by fs => (sizeOf fs, 0)
decreasing_by
  all_goals simp_wf
  · left; cases kv; simp; omega
  · left; omega

/-- One entry of the walk. `walk` mutates `obj[k]` for a numeric `first`
or `skip` and replaces an ids-like array by `v.slice(0, 200)`, then
recurses into the original value `v`; since the slice shares its element
references with `v`, the observable stored value is the 200-element
prefix of the recursively walked array. -/
def clampEntry (k : String) (v : Json) : Json :=
  match v with
  | .num n =>
      if k = "first" then .num (clampInt n 1 200)
      else if k = "skip" then .num (clampInt n 0 100000)
      else .num n
  | .arr xs =>
      if isIdsKey k then .arr ((clampWalkElems xs).take 200)
      else .arr (clampWalkElems xs)
  | .obj fs => .obj (clampWalkFields fs)
  | .null => .null
  | .bool b => .bool b
  | .str s => .str s
termination_by (sizeOf v, 1)

def clampWalkElems : List Json → List Json
  | [] => []
  | x :: xs => clampWalk x :: clampWalkElems xs
termination_by xs => (sizeOf xs, 0)

end

/-- src/index.ts `clampPagination(variables)` (observable result of the
in-place mutation). -/
def clampPagination (vars : Json) : Json := clampWalk vars

-- ---------------------------------------------------------------------
-- Upstream call outcome and the in-flight computation body
-- (src/index.ts `fetch`, lines 160-199)
-- ---------------------------------------------------------------------

/-- What the upstream origin returned when the network call succeeded:
status, optional content-type header, and body text. `Response.ok` is the
derived 2xx test. -/
structure UpstreamResp where
  status : Nat
  contentType : Option String
  text : String
deriving DecidableEq

/-- `Response.ok`: status in the range 200-299. -/
def UpstreamResp.okFlag (u : UpstreamResp) : Bool :=
  decide (200 ≤ u.status) && decide (u.status < 300)

/-- The plain data record shared between the driver, the coalesced
followers and the durable-cache writer (src/index.ts `InflightValue`). -/
structure InflightValue where
  status : Nat
  contentType : String
  text : String
  ok : Bool
deriving DecidableEq

/-- The error tag written into the synthesized failure body. -/
def errorTag (e : JsErr) : String :=
  if isAbortTimeout e then "UPSTREAM_TIMEOUT" else "UPSTREAM_FETCH_FAILED"

/-- The body of the in-flight computation (the async IIFE at src/index.ts
lines 160-199), as a function of the upstream call's outcome: a successful
response is repackaged as plain data with `ok` from `Response.ok`; a
thrown error synthesizes a JSON failure entry classified by
`isAbortTimeout`. -/
def computeInflightValue : Except JsErr UpstreamResp → InflightValue
  | .ok u =>
      { status := u.status
        contentType := u.contentType.getD "application/json"
        text := u.text
        ok := u.okFlag }
  | .error e =>
      { status := if isAbortTimeout e then 504 else 502
        contentType := "application/json"
        text := stringify (Json.obj
          [("error", .str (errorTag e)), ("message", .str e.message)])
        ok := false }

/-- The durable-cache writes issued for a settled value: `cache.put` runs
exactly when `v.ok` is true (src/index.ts lines 182-186). -/
def cacheWritesOf (key : String) (v : InflightValue) : List (String × InflightValue) :=
  if v.ok then [(key, v)] else []

/-- The cache key derivation of src/index.ts lines 119-125, with the
SHA-256 digest abstracted away: the key is the canonical string of the
versioned composite (SHA-256 is a fixed deterministic function of it, so
equality of inputs is preserved). -/
def hashKeyOf (query : String) (vars : Json) : String :=
  canonicalStringify (Json.obj
    [("v", .num (.val 5)), ("query", .str query), ("variables", vars)])

-- ---------------------------------------------------------------------
-- Addressed-heap embedding of `canonicalStringify`'s cycle guard
--
-- Here object identity is observable: composite nodes live at heap
-- addresses and may be shared or cyclic. `seen` is the WeakSet of the
-- source: it only ever grows during the traversal.
-- ---------------------------------------------------------------------

/-- A non-composite JavaScript value (`v === null || typeof v !== "object"`
in the helper's first test). -/
inductive GScalar where
  | null
  | bool (b : Bool)
  | num (n : JsNum)
  | str (s : String)
deriving DecidableEq

/-- A reference: either a scalar value or the address of a composite. -/
inductive GRef where
  | scalar (s : GScalar)
  | addr (a : Nat)
deriving DecidableEq

/-- A composite heap node: array of references or keyed map of
references. -/
inductive GNode where
  | arr (xs : List GRef)
  | obj (fs : List (String × GRef))

/-- The heap: every address holds a composite node. -/
def GStore := Nat → GNode

def scalarToJson : GScalar → Json
  | .null => .null
  | .bool b => .bool b
  | .num n => .num n
  | .str s => .str s

def gKeyLe (p q : String × GRef) : Prop := p.1 ≤ q.1

instance : DecidableRel gKeyLe := fun p q => inferInstanceAs (Decidable (p.1 ≤ q.1))

/-- `Object.keys(v).sort()` on a heap node's entries. -/
def sortGFields (fs : List (String × GRef)) : List (String × GRef) :=
  fs.insertionSort gKeyLe

mutual

/-- The helper of `canonicalStringify` on the heap: scalars pass through;
a composite address already in `seen` yields `null`; otherwise it is
added to `seen` (never removed — the WeakSet of the source has no
deletion) and its children are visited left to right, threading `seen`.
`fuel` bounds the recursion depth (it is a modelling artifact, consumed
on every call so the recursion is structural; each claim is settled at
fuel that is checked to be adequate, with no base case reached). -/
def gHelperRef : Nat → GStore → List Nat → GRef → Json × List Nat
  | 0, _, seen, _ => (.null, seen)
  | _ + 1, _, seen, .scalar s => (scalarToJson s, seen)
  | fuel + 1, store, seen, .addr a =>
      if a ∈ seen then (.null, seen)
      else
        match store a with
        | .arr xs =>
            let r := gHelperElems fuel store (a :: seen) xs
            (.arr r.1, r.2)
        | .obj fs =>
            let r := gHelperFields fuel store (a :: seen) (sortGFields fs)
            (.obj r.1, r.2)

def gHelperElems : Nat → GStore → List Nat → List GRef → List Json × List Nat
  | 0, _, seen, _ => ([], seen)
  | _ + 1, _, seen, [] => ([], seen)
  | fuel + 1, store, seen, x :: xs =>
      let r1 := gHelperRef fuel store seen x
      let r2 := gHelperElems fuel store r1.2 xs
      (r1.1 :: r2.1, r2.2)

def gHelperFields :
    Nat → GStore → List Nat → List (String × GRef) → List (String × Json) × List Nat
  | 0, _, seen, _ => ([], seen)
  | _ + 1, _, seen, [] => ([], seen)
  | fuel + 1, store, seen, kv :: rest =>
      let r1 := gHelperRef fuel store seen kv.2
      let r2 := gHelperFields fuel store r1.2 rest
      ((kv.1, r1.1) :: r2.1, r2.2)

end

/-- `canonicalStringify` on the heap embedding. -/
def canonicalStringifyG (fuel : Nat) (store : GStore) (root : GRef) : String :=
  stringify (gHelperRef fuel store [] root).1

-- ---------------------------------------------------------------------
-- The per-isolate coalescing machine
--
-- Cooperative concurrency: an atomic step is an uninterrupted segment of
-- the worker's `fetch` handler between `await` suspension points.
--   * `hit` / `follower` / `driver`: the segment resumed after
--     `cache.match` — the cache lookup's result, then (on miss) the
--     `inflight.get` check and, when absent, creation and registration of
--     a new computation (src/index.ts lines 137-204; there is no
--     suspension between `inflight.get` and `inflight.set`, which is why
--     this whole segment is one atomic step).
--   * `settle`: an in-flight computation finishes (upstream responded or
--     threw); the `.finally` cleanup deletes the registration, and a
--     successful value's `cache.put` is enqueued via `ctx.waitUntil`.
--   * `flushPut`: a pending `waitUntil` cache write completes.
--   * `respond`: a request whose awaited computation has settled returns
--     its response (driver gets X-Cache MISS, followers COALESCED).
-- ---------------------------------------------------------------------

/-- JS `Map.prototype.get` on an association list. -/
def mapGet {α : Type} (m : List (String × α)) (k : String) : Option α :=
  (m.find? (fun p => p.1 == k)).map (fun p => p.2)

/-- JS `Map.prototype.set`: replace in place if present, else append. -/
def mapSet {α : Type} (m : List (String × α)) (k : String) (v : α) :
    List (String × α) :=
  match m with
  | [] => [(k, v)]
  | p :: rest => if p.1 == k then (k, v) :: rest else p :: mapSet rest k v

/-- JS `Map.prototype.delete`: remove the entry for `k`, if any. -/
def mapDelete {α : Type} (m : List (String × α)) (k : String) :
    List (String × α) :=
  m.eraseP (fun p => p.1 == k)

/-- Where one logical request currently stands. -/
inductive Phase where
  | arrived
  | awaiting (comp : Nat) (driver : Bool)
  | responded (status : Nat) (text : String) (xcache : String)
deriving DecidableEq

structure ReqState where
  key : String
  phase : Phase
deriving DecidableEq

/-- One in-flight computation: its cache key and, once settled, its
value. -/
structure CompSt where
  key : String
  result : Option InflightValue
deriving DecidableEq

/-- The whole isolate: the logical requests, the `inflight` map, the
computations, the durable cache, and the queued `waitUntil` writes. -/
structure WState where
  reqs : List ReqState
  inflight : List (String × Nat)
  comps : List CompSt
  cache : List (String × InflightValue)
  pendingPuts : List (String × InflightValue)
deriving DecidableEq

inductive WLabel where
  | hit (i : Nat)
  | follower (i : Nat)
  | driver (i : Nat) (key : String)
  | settle (c : Nat) (key : String) (outcome : Except JsErr UpstreamResp)
  | flushPut
  | respond (i : Nat)

/-- One atomic step of the isolate. -/
inductive WStep : WState → WLabel → WState → Prop where
  | hit (s : WState) (i : Nat) (k : String) (v : InflightValue) :
      s.reqs[i]? = some ⟨k, .arrived⟩ →
      mapGet s.cache k = some v →
      WStep s (.hit i)
        { s with reqs := s.reqs.set i ⟨k, .responded v.status v.text "HIT"⟩ }
  | follower (s : WState) (i : Nat) (k : String) (c : Nat) :
      s.reqs[i]? = some ⟨k, .arrived⟩ →
      mapGet s.cache k = none →
      mapGet s.inflight k = some c →
      WStep s (.follower i)
        { s with reqs := s.reqs.set i ⟨k, .awaiting c false⟩ }
  | driver (s : WState) (i : Nat) (k : String) :
      s.reqs[i]? = some ⟨k, .arrived⟩ →
      mapGet s.cache k = none →
      mapGet s.inflight k = none →
      WStep s (.driver i k)
        { s with
            reqs := s.reqs.set i ⟨k, .awaiting s.comps.length true⟩
            comps := s.comps ++ [⟨k, none⟩]
            inflight := mapSet s.inflight k s.comps.length }
  | settle (s : WState) (c : Nat) (k : String)
      (outcome : Except JsErr UpstreamResp) :
      s.comps[c]? = some ⟨k, none⟩ →
      WStep s (.settle c k outcome)
        { s with
            comps := s.comps.set c ⟨k, some (computeInflightValue outcome)⟩
            inflight := mapDelete s.inflight k
            pendingPuts := s.pendingPuts ++
              cacheWritesOf k (computeInflightValue outcome) }
  | flush (s : WState) (k : String) (v : InflightValue)
      (rest : List (String × InflightValue)) :
      s.pendingPuts = (k, v) :: rest →
      WStep s .flushPut
        { s with pendingPuts := rest, cache := mapSet s.cache k v }
  | respond (s : WState) (i : Nat) (k : String) (c : Nat) (d : Bool)
      (ck : String) (v : InflightValue) :
      s.reqs[i]? = some ⟨k, .awaiting c d⟩ →
      s.comps[c]? = some ⟨ck, some v⟩ →
      WStep s (.respond i)
        { s with reqs := s.reqs.set i (ReqState.mk k (.responded v.status v.text (if d then "MISS" else "COALESCED"))) }

/-- A finite execution: a labelled sequence of atomic steps. -/
inductive WExec : WState → List WLabel → WState → Prop where
  | nil (s : WState) : WExec s [] s
  | cons (s : WState) (l : WLabel) (s' : WState) (tr : List WLabel)
      (s'' : WState) :
      WStep s l s' → WExec s' tr s'' → WExec s (l :: tr) s''

/-- The isolate's initial state: no registrations, no computations, no
queued writes; the durable cache may hold anything. -/
def initState (reqs : List ReqState) (cache : List (String × InflightValue)) :
    WState :=
  { reqs := reqs, inflight := [], comps := [], cache := cache,
    pendingPuts := [] }

/-- Is this label the registration of a new upstream call for key `k`?
(The upstream request is issued inside the same atomic segment that
registers the computation.) -/
def isDriverFor (k : String) : WLabel → Bool
  | .driver _ k' => k' == k
  | _ => false

/-- Number of upstream calls issued for key `k` along a trace. -/
def upstreamCallCount (k : String) (tr : List WLabel) : Nat :=
  tr.countP (isDriverFor k)

/-- Is this label the settlement of a computation for key `k`? -/
def isSettleFor (k : String) : WLabel → Bool
  | .settle _ k' _ => k' == k
  | _ => false

-- ---------------------------------------------------------------------
-- Small helper lemmas
-- ---------------------------------------------------------------------

theorem toLower_idem (c : Char) : Char.toLower (Char.toLower c) = Char.toLower c := by
  simp only [Char.toLower]
  by_cases h : c.toNat ≥ 65 ∧ c.toNat ≤ 90
  · rw [if_pos h]
    have hv : (c.toNat + 32).isValidChar := by rcases h with ⟨h1, h2⟩; left; omega
    have ht : (Char.ofNat (c.toNat + 32)).toNat = c.toNat + 32 := by
      simp only [Char.ofNat, hv, dite_true]
      simp only [Char.ofNatAux, Char.toNat]
      simp [UInt32.toNat]
    rw [if_neg]
    rw [ht]
    omega
  · rw [if_neg h, if_neg h]

theorem lowerStr_idem (s : String) : lowerStr (lowerStr s) = lowerStr s := by
  cases s with
  | mk data =>
    simp only [lowerStr, List.map_map]
    congr 1
    apply List.map_congr_left
    intro c _
    exact toLower_idem c

-- ---------------------------------------------------------------------
-- C7: cache-control directive
-- ---------------------------------------------------------------------

/-- C7: for every TTL value, the cache-control directive attached to
responses is exactly the comma-separated directive list carrying the
browser-facing `max-age=0` (always revalidate) together with the
shared/edge-facing `s-maxage=ttl` and `stale-while-revalidate=ttl`. -/
theorem C7_cache_control_edge_only_directives (ttl : Nat) :
    cacheControlEdgeOnly ttl =
      String.intercalate ", "
        ["public", "max-age=0", "s-maxage=" ++ toString ttl,
          "stale-while-revalidate=" ++ toString ttl] := by
  apply String.ext
  simp [cacheControlEdgeOnly, String.intercalate, String.intercalate.go,
    String.data_append]

-- ---------------------------------------------------------------------
-- C8: TTL selection is a pure function of the query text alone
-- ---------------------------------------------------------------------

/-- C8: the TTL selected for a request depends only on the query text,
case-insensitized: the two-argument variant yields the same TTL for any
two variable trees, and the selection is invariant under lowercasing the
query. -/
theorem C8_ttl_pure_function_of_query (q : String) (v₁ v₂ : Json) :
    pickTtlSecondsV1 q v₁ = pickTtlSecondsV1 q v₂ ∧
    pickTtlSeconds (lowerStr q) = pickTtlSeconds q := by
  constructor
  · rfl
  · simp only [pickTtlSeconds, lowerStr_idem]

-- ---------------------------------------------------------------------
-- C9: timeout classification is exactly the "timeout" substring test
-- ---------------------------------------------------------------------

/-- C9: an upstream-call error is classified 504 if and only if the
lowercased error message contains "timeout"; the classification ignores
whether the error actually came from an abort (`a` and `b` below), and an
error without the substring is classified 502. -/
theorem C9_timeout_classification_by_message (m : String) (a b : Bool) :
    ((computeInflightValue (.error ⟨m, a⟩)).status = 504 ↔
      strIncludes (lowerStr m) "timeout" = true) ∧
    (computeInflightValue (.error ⟨m, a⟩)).status
      = (computeInflightValue (.error ⟨m, b⟩)).status ∧
    ((computeInflightValue (.error ⟨m, a⟩)).status = 502 ↔
      strIncludes (lowerStr m) "timeout" = false) := by
  cases hb : strIncludes (lowerStr m) "timeout" <;>
    simp [computeInflightValue, isAbortTimeout, hb]

-- ---------------------------------------------------------------------
-- C3: synthesized failure entries; only ok entries are written
-- ---------------------------------------------------------------------

/-- Every `waitUntil` cache write queued along an execution carries an
`ok = true` value. -/
theorem pendingPuts_all_ok {s₀ : WState} {tr : List WLabel} {s : WState}
    (hexec : WExec s₀ tr s)
    (hinit : ∀ kv ∈ s₀.pendingPuts, kv.2.ok = true) :
    ∀ kv ∈ s.pendingPuts, kv.2.ok = true := by
  induction hexec with
  | nil s => exact hinit
  | cons s l s' tr s'' hstep _ ih =>
    apply ih
    cases hstep with
    | hit i k v h1 h2 => exact hinit
    | follower i k c h1 h2 h3 => exact hinit
    | driver i k h1 h2 h3 => exact hinit
    | settle c k outcome h1 =>
      intro kv hkv
      simp only [List.mem_append] at hkv
      rcases hkv with h | h
      · exact hinit kv h
      · simp only [cacheWritesOf] at h
        split at h
        · rename_i hok
          simp at h
          rw [h]
          exact hok
        · simp at h
    | flush k v rest h1 =>
      intro kv hkv
      exact hinit kv (by rw [h1]; exact List.mem_cons_of_mem _ hkv)
    | respond i k c d ck v h1 h2 => exact hinit

/-- C3: a failed upstream call synthesizes an `ok = false` entry whose
status is 504 exactly for the timeout classification (the deadline abort
error is so classified) and 502 otherwise, with distinct error tags; and
no `ok = false` entry is ever handed to the durable cache — at the put
site only `ok = true` values are emitted, and every write queued in any
execution of the machine from an initial state carries `ok = true`. -/
theorem C3_failure_entries_and_cache_gating :
    (∀ e : JsErr,
      (computeInflightValue (.error e)).ok = false ∧
      (computeInflightValue (.error e)).status =
        (if isAbortTimeout e then 504 else 502) ∧
      (isAbortTimeout e = false →
        errorTag e = "UPSTREAM_FETCH_FAILED" ∧
          (computeInflightValue (.error e)).status = 502)) ∧
    isAbortTimeout timeoutError = true ∧
    (computeInflightValue (.error timeoutError)).status = 504 ∧
    errorTag timeoutError = "UPSTREAM_TIMEOUT" ∧
    "UPSTREAM_TIMEOUT" ≠ "UPSTREAM_FETCH_FAILED" ∧
    (∀ (k : String) (out : Except JsErr UpstreamResp)
      (kv : String × InflightValue),
      kv ∈ cacheWritesOf k (computeInflightValue out) → kv.2.ok = true) ∧
    (∀ (reqs : List ReqState) (cache : List (String × InflightValue))
      (tr : List WLabel) (s : WState),
      WExec (initState reqs cache) tr s →
      ∀ kv ∈ s.pendingPuts, kv.2.ok = true) := by
  refine ⟨?_, ?_, ?_, ?_, ?_, ?_, ?_⟩
  · intro e
    refine ⟨rfl, rfl, ?_⟩
    intro hne
    constructor
    · simp [errorTag, hne]
    · simp [computeInflightValue, hne]
  · decide
  · decide
  · decide
  · decide
  · intro k out kv hkv
    simp only [cacheWritesOf] at hkv
    split at hkv
    · rename_i hok
      simp at hkv
      rw [hkv]
      exact hok
    · simp at hkv
  · intro reqs cache tr s hexec
    exact pendingPuts_all_ok hexec (by simp [initState])

/-- Witness for C3 at concrete inputs: a non-timeout error and the empty
execution. -/
theorem C3_witness :
    (computeInflightValue (.error ⟨"connection reset", false⟩)).ok = false ∧
    (∀ kv ∈ (initState [] []).pendingPuts, kv.2.ok = true) :=
  ⟨(C3_failure_entries_and_cache_gating.1 ⟨"connection reset", false⟩).1,
    C3_failure_entries_and_cache_gating.2.2.2.2.2.2 [] [] [] (initState [] [])
      (WExec.nil _)⟩

-- ---------------------------------------------------------------------
-- C10: clamping and non-number `first` values
-- ---------------------------------------------------------------------

/-- A variables tree whose `first` entry is an object (a non-number). -/
def c10input : Json :=
  .obj [("first", .obj [("skip", .num (.val 200000))])]

/-- C10 counterexample: the claim says a `first` value of any non-number
type passes through clamping unchanged, but a composite `first` value is
recursively walked, so the nested `skip` inside it is still clamped
(200000 becomes 100000) and the tree comes out changed. -/
theorem C10_counterexample :
    clampPagination c10input
      = Json.obj [("first", Json.obj [("skip", Json.num (.val 100000))])] ∧
    clampPagination c10input ≠ c10input := by
  have h : clampPagination c10input
      = Json.obj [("first", Json.obj [("skip", Json.num (.val 100000))])] := by
    simp [c10input, clampPagination, clampWalk, clampWalkFields, clampEntry,
      clampInt, jsTrunc]
  refine ⟨h, ?_⟩
  rw [h]
  intro heq
  simp only [c10input, Json.obj.injEq, List.cons.injEq, Prod.mk.injEq,
    Json.num.injEq, JsNum.val.injEq, and_true, true_and] at heq
  norm_num at heq

/-- C5 heap: address 0 is an object whose entries `a` and `b` both point
at the shared address 1, which holds the empty object. Nothing is
cyclic: node 1 is not on the active recursion path when the `b` entry is
visited. -/
def c5store : GStore := fun a =>
  if a = 0 then .obj [("a", .addr 1), ("b", .addr 1)] else .obj []

/-- C5 counterexample: the claim says a composite node serializes as
`null` exactly when revisited on the active path, and that a node shared
by two sibling positions is serialized normally at each occurrence. On
`c5store` the shared (acyclic) node 1 serializes normally under `a` but
as `null` under `b`, because the `seen` WeakSet is never pruned when the
recursion leaves a node. Fuel 10 is more than adequate: the traversal
depth is 2. -/
theorem C5_counterexample :
    (gHelperRef 10 c5store [] (.addr 0)).1
      = Json.obj [("a", Json.obj []), ("b", Json.null)] ∧
    (gHelperRef 10 c5store [] (.addr 0)).1
      ≠ Json.obj [("a", Json.obj []), ("b", Json.obj [])] := by
  have hval : (gHelperRef 10 c5store [] (.addr 0)).1
      = Json.obj [("a", Json.obj []), ("b", Json.null)] := by
    norm_num [gHelperRef, gHelperElems, gHelperFields, c5store, sortGFields,
      List.insertionSort, List.orderedInsert, gKeyLe, scalarToJson]
  refine ⟨hval, ?_⟩
  intro h
  rw [hval] at h
  simp at h

/-- C5 amended: during canonicalization a composite node serializes as
`null` exactly when its address has already been visited earlier in the
traversal — whether or not it is still on the active recursion path; in
particular the first occurrence of a shared node is serialized normally
and every later occurrence as `null`. -/
theorem C5_amended_null_iff_revisited (fuel : Nat) (store : GStore)
    (seen : List Nat) (a : Nat) :
    (gHelperRef (fuel + 1) store seen (.addr a)).1 = Json.null ↔ a ∈ seen := by
  by_cases h : a ∈ seen
  · simp [gHelperRef, h]
  · simp only [gHelperRef, h, if_false]
    cases store a <;> simp

/-- C10 amended: clamping applies only to values whose runtime type is
exactly number (for `first`/`skip`) or array (for ids-like keys). A
scalar non-number `first` value (string, boolean, null) passes through
unchanged — and is therefore used as-is in the clamped tree from which
both the cache key and the forwarded request body are computed — while a
composite non-number value is kept in place but recursively walked, so
clampable entries nested inside it are still clamped. -/
theorem C10_amended_nonnumber_passthrough (k s0 : String) (b : Bool)
    (fs : List (String × Json)) :
    clampEntry k (.str s0) = .str s0 ∧
    clampEntry k (.bool b) = .bool b ∧
    clampEntry k .null = .null ∧
    clampEntry "first" (.obj fs) = .obj (clampWalkFields fs) ∧
    clampPagination (Json.obj [("first", .str "9999")])
      = Json.obj [("first", .str "9999")] := by
  refine ⟨?_, ?_, ?_, ?_, ?_⟩ <;>
    simp [clampEntry, clampWalk, clampPagination, clampWalkFields]

-- ---------------------------------------------------------------------
-- C6: clamping bounds
-- ---------------------------------------------------------------------

/-- The per-entry bound the clamping policy promises: a numeric `first`
lies in [1, 200], a numeric `skip` in [0, 100000], and an ids-like array
has at most 200 elements. Non-number / non-array values are not
constrained (see C10). -/
def boundedEntryOK (k : String) (v : Json) : Bool :=
  (if k = "first" then
    match v with
    | .num (.val q) => decide (1 ≤ q ∧ q ≤ 200)
    | .num _ => false
    | _ => true
  else true) &&
  (if k = "skip" then
    match v with
    | .num (.val q) => decide (0 ≤ q ∧ q ≤ 100000)
    | .num _ => false
    | _ => true
  else true) &&
  (if isIdsKey k then
    match v with
    | .arr xs => decide (xs.length ≤ 200)
    | _ => true
  else true)

mutual

/-- Every entry anywhere in the tree satisfies `boundedEntryOK`. -/
def boundedVal : Json → Bool
  | .null => true
  | .bool _ => true
  | .num _ => true
  | .str _ => true
  | .obj fs => boundedFields fs
  | .arr xs => boundedElems xs
termination_by v => sizeOf v

def boundedFields : List (String × Json) → Bool
  | [] => true
  | kv :: rest => boundedEntryOK kv.1 kv.2 && boundedVal kv.2 && boundedFields rest
termination_by fs => sizeOf fs
decreasing_by
  all_goals simp_wf
  all_goals try (cases kv; simp)
  all_goals omega

def boundedElems : List Json → Bool
  | [] => true
  | x :: xs => boundedVal x && boundedElems xs
termination_by xs => sizeOf xs

end

theorem boundedElems_take :
    ∀ (l : List Json) (m : Nat), boundedElems l = true → boundedElems (l.take m) = true
  | [], m, _ => by simp [boundedElems]
  | x :: xs, 0, _ => by simp [boundedElems]
  | x :: xs, m + 1, h => by
      simp only [boundedElems, Bool.and_eq_true] at h
      simp only [List.take, boundedElems, Bool.and_eq_true]
      exact ⟨h.1, boundedElems_take xs m h.2⟩

/-- `clampInt` lands in the closed interval, with non-finite input at the
lower bound. -/
theorem clampInt_mem (n : JsNum) (lo hi : ℤ) (hlohi : lo ≤ hi) :
    ∃ q : ℚ, clampInt n lo hi = .val q ∧ (lo : ℚ) ≤ q ∧ q ≤ (hi : ℚ) := by
  cases n with
  | val q =>
      refine ⟨((min (max (jsTrunc q) lo) hi : ℤ) : ℚ), rfl, ?_, ?_⟩
      · have h : lo ≤ min (max (jsTrunc q) lo) hi := by omega
        exact_mod_cast h
      · have h : min (max (jsTrunc q) lo) hi ≤ hi := by omega
        exact_mod_cast h
  | nan => exact ⟨(lo : ℚ), rfl, le_refl _, by exact_mod_cast hlohi⟩
  | posInf => exact ⟨(lo : ℚ), rfl, le_refl _, by exact_mod_cast hlohi⟩
  | negInf => exact ⟨(lo : ℚ), rfl, le_refl _, by exact_mod_cast hlohi⟩

mutual

theorem boundedVal_clampWalk : ∀ v : Json, boundedVal (clampWalk v) = true
  | .null => by simp [clampWalk, boundedVal]
  | .bool b => by simp [clampWalk, boundedVal]
  | .num n => by simp [clampWalk, boundedVal]
  | .str s => by simp [clampWalk, boundedVal]
  | .arr xs => by
      rw [show clampWalk (.arr xs) = .arr (clampWalkElems xs) from by
        simp [clampWalk]]
      simpa [boundedVal] using boundedElems_clampWalkElems xs
  | .obj fs => by
      rw [show clampWalk (.obj fs) = .obj (clampWalkFields fs) from by
        simp [clampWalk]]
      simpa [boundedVal] using boundedFields_clampWalkFields fs
termination_by v => (sizeOf v, 0)

theorem boundedFields_clampWalkFields :
    ∀ fs : List (String × Json), boundedFields (clampWalkFields fs) = true
  | [] => by simp [clampWalkFields, boundedFields]
  | kv :: rest => by
      have h1 := boundedEntry_clampEntry kv.1 kv.2
      have h2 := boundedFields_clampWalkFields rest
      simp only [clampWalkFields, boundedFields, Bool.and_eq_true]
      exact ⟨⟨h1.1, h1.2⟩, h2⟩
termination_by fs => (sizeOf fs, 0)
decreasing_by
  all_goals simp_wf
  · left; cases kv; simp; omega
  · left; omega

theorem boundedEntry_clampEntry :
    ∀ (k : String) (v : Json),
      boundedEntryOK k (clampEntry k v) = true ∧
        boundedVal (clampEntry k v) = true
  | k, .num n => by
      by_cases hf : k = "first"
      · subst hf
        obtain ⟨q, hq, hq1, hq2⟩ := clampInt_mem n 1 200 (by omega)
        simp [clampEntry, hq, boundedEntryOK, boundedVal, isIdsKey, hq1, hq2]
        constructor
        · exact_mod_cast hq1
        · exact_mod_cast hq2
      · by_cases hs : k = "skip"
        · subst hs
          obtain ⟨q, hq, hq1, hq2⟩ := clampInt_mem n 0 100000 (by omega)
          simp [clampEntry, hq, boundedEntryOK, boundedVal, isIdsKey, hf]
          constructor
          · exact_mod_cast hq1
          · exact_mod_cast hq2
        · simp [clampEntry, hf, hs, boundedEntryOK, boundedVal]
  | k, .arr xs => by
      have hx := boundedElems_clampWalkElems xs
      by_cases hids : isIdsKey k = true
      · rw [show clampEntry k (.arr xs) = .arr ((clampWalkElems xs).take 200) from by
          simp [clampEntry, hids]]
        constructor
        · simp [boundedEntryOK, hids]
        · simpa [boundedVal] using boundedElems_take (clampWalkElems xs) 200 hx
      · rw [show clampEntry k (.arr xs) = .arr (clampWalkElems xs) from by
          simp [clampEntry, hids]]
        constructor
        · simp [boundedEntryOK, hids]
        · simpa [boundedVal] using hx
  | k, .obj fs => by
      have h := boundedFields_clampWalkFields fs
      rw [show clampEntry k (.obj fs) = .obj (clampWalkFields fs) from by
        simp [clampEntry]]
      constructor
      · simp [boundedEntryOK]
      · simpa [boundedVal] using h
  | k, .null => by simp [clampEntry, boundedEntryOK, boundedVal]
  | k, .bool b => by simp [clampEntry, boundedEntryOK, boundedVal]
  | k, .str s => by simp [clampEntry, boundedEntryOK, boundedVal]
termination_by k v => (sizeOf v, 1)

theorem boundedElems_clampWalkElems :
    ∀ xs : List Json, boundedElems (clampWalkElems xs) = true
  | [] => by simp [clampWalkElems, boundedElems]
  | x :: xs => by
      have h1 := boundedVal_clampWalk x
      have h2 := boundedElems_clampWalkElems xs
      simp only [clampWalkElems, boundedElems, Bool.and_eq_true]
      exact ⟨h1, h2⟩
termination_by xs => (sizeOf xs, 0)

end

/-- A non-composite value is left untouched by the walk. -/
theorem clampWalk_scalar (v : Json) (h : v.isComposite = false) :
    clampWalk v = v := by
  cases v <;> simp_all [clampWalk, Json.isComposite]

theorem clampWalkElems_scalar :
    ∀ xs : List Json, (∀ x ∈ xs, x.isComposite = false) → clampWalkElems xs = xs
  | [], _ => by simp [clampWalkElems]
  | x :: xs, h => by
      simp only [clampWalkElems]
      rw [clampWalk_scalar x (h x (by simp)),
        clampWalkElems_scalar xs (fun y hy => h y (by simp [hy]))]

/-- C6: after clamping, every numeric `first` in the tree lies in
[1, MAX_FIRST] = [1, 200] and every numeric `skip` in [0, 100000]
(via `boundedVal`, which also checks every ids-like array has length at
most 200); non-finite numeric input maps to the lower bound; and an
ids-like array is replaced by the 200-element prefix of the recursively
walked original array — exactly the original's prefix when the elements
are scalars. -/
theorem C6_clamp_bounds (t : Json) (k : String) (n : JsNum) (xs : List Json) :
    boundedVal (clampPagination t) = true ∧
    (n.finite = false → clampEntry "first" (.num n) = .num (.val 1)) ∧
    (isIdsKey k = true →
      clampEntry k (.arr xs) = .arr ((clampWalkElems xs).take 200) ∧
      ((clampWalkElems xs).take 200).length ≤ 200) ∧
    ((∀ x ∈ xs, x.isComposite = false) → isIdsKey k = true →
      clampEntry k (.arr xs) = .arr (xs.take 200)) := by
  refine ⟨boundedVal_clampWalk t, ?_, ?_, ?_⟩
  · intro hnf
    cases n <;> simp_all [clampEntry, clampInt, JsNum.finite]
  · intro hids
    refine ⟨by simp [clampEntry, hids], ?_⟩
    simp
  · intro hsc hids
    rw [show clampEntry k (.arr xs) = .arr ((clampWalkElems xs).take 200) from by
      simp [clampEntry, hids]]
    rw [clampWalkElems_scalar xs hsc]

/-- Witness for C6 at concrete inputs: an out-of-range `first`, a
non-finite `first`, and an ids array of scalars. -/
theorem C6_witness :
    boundedVal (clampPagination (Json.obj [("first", .num (.val 9999))])) = true ∧
    clampEntry "first" (.num .nan) = .num (.val 1) ∧
    clampEntry "ids" (.arr [.str "a"]) = .arr (([Json.str "a"]).take 200) := by
  have h := C6_clamp_bounds (Json.obj [("first", .num (.val 9999))]) "ids" .nan
    [.str "a"]
  refine ⟨h.1, h.2.1 rfl, ?_⟩
  exact h.2.2.2 (by intro x hx; simp at hx; rw [hx]; rfl) (by decide)

-- ---------------------------------------------------------------------
-- Association-list map lemmas (JS Map get/set/delete)
-- ---------------------------------------------------------------------

theorem mapGet_eq_none_forall {α : Type} :
    ∀ {m : List (String × α)} {k : String}, mapGet m k = none →
      ∀ kc ∈ m, kc.1 ≠ k
  | [], _, _ => by intro kc hkc; simp at hkc
  | p :: rest, k, h => by
      intro kc hkc
      by_cases hpk : p.1 == k
      · simp [mapGet, List.find?, hpk] at h
      · rcases List.mem_cons.mp hkc with hkp | hkr
        · subst hkp; simpa using hpk
        · exact mapGet_eq_none_forall
            (by simpa [mapGet, List.find?, hpk] using h) kc hkr

theorem mapGet_some_mem {α : Type} :
    ∀ {m : List (String × α)} {k : String} {v : α}, mapGet m k = some v →
      (k, v) ∈ m
  | [], _, _, h => by simp [mapGet] at h
  | p :: rest, k, v, h => by
      by_cases hpk : p.1 == k
      · simp only [mapGet, List.find?, hpk] at h
        have hk : p.1 = k := by simpa using hpk
        have hv : p.2 = v := by simpa using h
        exact List.mem_cons.mpr (Or.inl (by rw [← hk, ← hv]))
      · refine List.mem_cons.mpr (Or.inr (mapGet_some_mem ?_))
        simpa [mapGet, List.find?, hpk] using h

theorem mapSet_absent {α : Type} :
    ∀ (m : List (String × α)) (k : String) (v : α), mapGet m k = none →
      mapSet m k v = m ++ [(k, v)]
  | [], _, _, _ => rfl
  | p :: rest, k, v, h => by
      by_cases hpk : p.1 == k
      · simp [mapGet, List.find?, hpk] at h
      · simp only [mapSet]
        rw [if_neg (by simpa using hpk)]
        simp only [List.cons_append, List.cons.injEq, true_and]
        exact mapSet_absent rest k v
          (by simpa [mapGet, List.find?, hpk] using h)

theorem mem_mapDelete_of_nodup {α : Type} :
    ∀ {m : List (String × α)} {k : String},
      (m.map Prod.fst).Nodup →
      ∀ kc ∈ mapDelete m k, kc ∈ m ∧ kc.1 ≠ k
  | [], _, _ => by intro kc hkc; simp [mapDelete] at hkc
  | p :: rest, k, hnd => by
      intro kc hkc
      simp only [List.map_cons, List.nodup_cons] at hnd
      by_cases hpk : p.1 == k
      · rw [show mapDelete (p :: rest) k = rest from by
          simp [mapDelete, List.eraseP_cons, hpk]] at hkc
        refine ⟨List.mem_cons_of_mem _ hkc, ?_⟩
        intro hkck
        have hp : p.1 = k := by simpa using hpk
        exact hnd.1 (List.mem_map.mpr ⟨kc, hkc, by rw [hkck, hp]⟩)
      · rw [show mapDelete (p :: rest) k = p :: mapDelete rest k from by
          simp [mapDelete, List.eraseP_cons, hpk]] at hkc
        rcases List.mem_cons.mp hkc with hkp | hkr
        · exact ⟨List.mem_cons.mpr (Or.inl hkp), by subst hkp; simpa using hpk⟩
        · have := mem_mapDelete_of_nodup hnd.2 kc hkr
          exact ⟨List.mem_cons_of_mem _ this.1, this.2⟩

theorem mapDelete_keys_nodup {α : Type} {m : List (String × α)} {k : String}
    (hnd : (m.map Prod.fst).Nodup) :
    ((mapDelete m k).map Prod.fst).Nodup :=
  hnd.sublist ((List.eraseP_sublist m).map Prod.fst)

-- ---------------------------------------------------------------------
-- C2: the in-flight registry invariant
-- ---------------------------------------------------------------------

/-- The registry invariant: keys are unique (at most one registration per
key), and every registered computation exists, matches its key, and is
still pending. -/
def InflightInv (s : WState) : Prop :=
  (s.inflight.map Prod.fst).Nodup ∧
  ∀ kc ∈ s.inflight, s.comps[kc.2]? = some ⟨kc.1, none⟩

theorem inflightInv_step {s s' : WState} {l : WLabel}
    (h : WStep s l s') (hinv : InflightInv s) : InflightInv s' := by
  obtain ⟨hnd, hreg⟩ := hinv
  cases h with
  | hit i k v h1 h2 => exact ⟨hnd, hreg⟩
  | follower i k c h1 h2 h3 => exact ⟨hnd, hreg⟩
  | driver i k h1 h2 h3 =>
      constructor
      · show ((mapSet s.inflight k s.comps.length).map Prod.fst).Nodup
        rw [mapSet_absent _ _ _ h3]
        have hk : k ∉ s.inflight.map Prod.fst := by
          intro hmem
          obtain ⟨kc, hkc, hfst⟩ := List.mem_map.mp hmem
          exact mapGet_eq_none_forall h3 kc hkc hfst
        simp [List.nodup_append, hnd, hk]
      · intro kc hkc
        rw [mapSet_absent _ _ _ h3] at hkc
        rcases List.mem_append.mp hkc with hold | hnew
        · have hc := hreg kc hold
          have hlt : kc.2 < s.comps.length := (List.getElem?_eq_some.mp hc).1
          show (s.comps ++ [⟨k, none⟩])[kc.2]? = some ⟨kc.1, none⟩
          rw [List.getElem?_append_left hlt]
          exact hc
        · have hkc' : kc = (k, s.comps.length) := by simpa using hnew
          subst hkc'
          show (s.comps ++ [⟨k, none⟩])[s.comps.length]? = some ⟨k, none⟩
          exact List.getElem?_concat_length _ _
  | settle c k outcome h1 =>
      constructor
      · exact mapDelete_keys_nodup hnd
      · intro kc hkc
        obtain ⟨hmem, hne⟩ := mem_mapDelete_of_nodup hnd kc hkc
        have hold := hreg kc hmem
        have hcne : kc.2 ≠ c := by
          intro hceq
          rw [hceq, h1] at hold
          have : k = kc.1 := congrArg CompSt.key (Option.some.inj hold)
          exact hne this.symm
        show (s.comps.set c _)[kc.2]? = some ⟨kc.1, none⟩
        rw [List.getElem?_set_ne (Ne.symm hcne)]
        exact hold
  | flush k v rest h1 => exact ⟨hnd, hreg⟩
  | respond i k c d ck v h1 h2 => exact ⟨hnd, hreg⟩

theorem inflightInv_exec {s : WState} {tr : List WLabel} {s' : WState}
    (h : WExec s tr s') (hinv : InflightInv s) : InflightInv s' := by
  induction h with
  | nil s => exact hinv
  | cons s l s' tr s'' hstep _ ih => exact ih (inflightInv_step hstep hinv)

/-- C2: in every state reachable from an initial state, the registry has
at most one registration per key; every registered computation is still
pending (so a settled computation is never registered — the `.finally`
cleanup removes it as part of settlement on both the success and the
failure path, and a later request for the key must register a fresh
computation). -/
theorem C2_registry_invariant (reqs : List ReqState)
    (cache : List (String × InflightValue)) (tr : List WLabel) (s : WState)
    (hexec : WExec (initState reqs cache) tr s) :
    (s.inflight.map Prod.fst).Nodup ∧
    (∀ kc ∈ s.inflight, s.comps[kc.2]? = some ⟨kc.1, none⟩) ∧
    (∀ (c : Nat) (cs : CompSt), s.comps[c]? = some cs → cs.result ≠ none →
      mapGet s.inflight cs.key ≠ some c) := by
  have hinv := inflightInv_exec hexec ⟨by simp [initState], by simp [initState]⟩
  refine ⟨hinv.1, hinv.2, ?_⟩
  intro c cs hc hres hget
  have hmem := mapGet_some_mem hget
  have := hinv.2 (cs.key, c) hmem
  rw [hc] at this
  have : cs = ⟨cs.key, none⟩ := Option.some.inj this
  exact hres (congrArg CompSt.result this)

/-- Witness for C2: the one-step execution in which a single request
registers a computation for key "k". -/
theorem C2_witness :
    (let s : WState :=
      { reqs := [⟨"k", .awaiting 0 true⟩], inflight := [("k", 0)],
        comps := [⟨"k", none⟩], cache := [], pendingPuts := [] }
     (s.inflight.map Prod.fst).Nodup ∧
     (∀ kc ∈ s.inflight, s.comps[kc.2]? = some ⟨kc.1, none⟩) ∧
     (∀ (c : Nat) (cs : CompSt), s.comps[c]? = some cs → cs.result ≠ none →
       mapGet s.inflight cs.key ≠ some c)) :=
  C2_registry_invariant [⟨"k", .arrived⟩] [] [.driver 0 "k"] _
    (WExec.cons _ _ _ _ _ (WStep.driver _ 0 "k" rfl rfl rfl) (WExec.nil _))

-- ---------------------------------------------------------------------
-- C4: canonicalization is insertion-order independent
-- ---------------------------------------------------------------------

mutual

/-- Every object anywhere in the tree has pairwise-distinct keys — true
of every value produced by JavaScript's object semantics, where a key
occurs at most once. -/
def keysNodupB : Json → Bool
  | .null => true
  | .bool _ => true
  | .num _ => true
  | .str _ => true
  | .arr xs => keysNodupBList xs
  | .obj fs => decide ((fs.map Prod.fst).Nodup) && keysNodupBFields fs
termination_by v => sizeOf v

def keysNodupBList : List Json → Bool
  | [] => true
  | x :: xs => keysNodupB x && keysNodupBList xs
termination_by xs => sizeOf xs

def keysNodupBFields : List (String × Json) → Bool
  | [] => true
  | kv :: rest => keysNodupB kv.2 && keysNodupBFields rest
termination_by fs => sizeOf fs
decreasing_by
  all_goals simp_wf
  all_goals try (cases kv; simp)
  all_goals omega

end

/-- Two trees are equal up to permuting the insertion order of map keys:
scalars are equal, arrays correspond elementwise, and an object's entry
list carries the same keys with recursively related values, reordered by
an arbitrary permutation. -/
inductive PermEquiv : Json → Json → Prop where
  | null : PermEquiv .null .null
  | bool (b : Bool) : PermEquiv (.bool b) (.bool b)
  | num (n : JsNum) : PermEquiv (.num n) (.num n)
  | str (s : String) : PermEquiv (.str s) (.str s)
  | arr {xs ys : List Json} :
      List.Forall₂ PermEquiv xs ys → PermEquiv (.arr xs) (.arr ys)
  | obj {fs gs hs : List (String × Json)} :
      List.map Prod.fst fs = List.map Prod.fst gs →
      List.Forall₂ PermEquiv (List.map Prod.snd fs) (List.map Prod.snd gs) →
      List.Perm gs hs → PermEquiv (.obj fs) (.obj hs)

/-- Strict version of the key order, used to pin sorted lists down
uniquely. -/
def keyLt (p q : String × Json) : Prop := p.1 < q.1

instance : IsTotal (String × Json) keyLe := ⟨fun a b => le_total a.1 b.1⟩

instance : IsTrans (String × Json) keyLe := ⟨fun _ _ _ h1 h2 => le_trans h1 h2⟩

instance : IsAntisymm (String × Json) keyLt :=
  ⟨fun _ _ h1 h2 => absurd h2 (lt_asymm h1)⟩

theorem sortFields_sorted_lt (l : List (String × Json))
    (hnd : (l.map Prod.fst).Nodup) : List.Sorted keyLt (sortFields l) := by
  have hs : List.Sorted keyLe (sortFields l) := List.sorted_insertionSort keyLe l
  have hperm : List.Perm ((sortFields l).map Prod.fst) (l.map Prod.fst) :=
    (List.perm_insertionSort keyLe l).map Prod.fst
  have hnd' : ((sortFields l).map Prod.fst).Nodup := hperm.nodup_iff.mpr hnd
  have hpw : List.Pairwise (fun a b : String × Json => a.1 ≠ b.1)
      (sortFields l) := List.pairwise_map.mp hnd'
  exact (hs.and hpw).imp fun h => lt_of_le_of_ne h.1 h.2

theorem sortFields_perm_eq {l₁ l₂ : List (String × Json)} (hp : l₁.Perm l₂)
    (hnd : (l₁.map Prod.fst).Nodup) : sortFields l₁ = sortFields l₂ := by
  have hnd₂ : (l₂.map Prod.fst).Nodup := (hp.map Prod.fst).nodup_iff.mp hnd
  exact List.eq_of_perm_of_sorted
    ((List.perm_insertionSort keyLe l₁).trans
      (hp.trans (List.perm_insertionSort keyLe l₂).symm))
    (sortFields_sorted_lt l₁ hnd) (sortFields_sorted_lt l₂ hnd₂)

/-- The transformation the helper applies to one object entry. -/
def canonEntryMap (kv : String × Json) : String × Json :=
  (kv.1, canonHelper kv.2)

theorem canonHelperFields_eq_map :
    ∀ l : List (String × Json), canonHelperFields l = l.map canonEntryMap
  | [] => by simp [canonHelperFields]
  | kv :: rest => by
      simp [canonHelperFields, canonEntryMap, canonHelperFields_eq_map rest]

theorem canonEntryMap_keys (l : List (String × Json)) :
    (l.map canonEntryMap).map Prod.fst = l.map Prod.fst := by
  induction l with
  | nil => rfl
  | cons kv rest ih => simp [canonEntryMap, ih]

theorem sortFields_map_commute (l : List (String × Json)) :
    (sortFields l).map canonEntryMap = sortFields (l.map canonEntryMap) := by
  exact List.map_insertionSort keyLe keyLe canonEntryMap l
    (fun a _ b _ => Iff.rfl)

/-- Core induction: the canonicalizing helper identifies key-permuted
trees (with the duplicate-key-free side condition that JS objects always
satisfy). -/
theorem canonHelper_permEquiv :
    ∀ (N : Nat) (t₁ t₂ : Json), sizeOf t₁ ≤ N → PermEquiv t₁ t₂ →
      keysNodupB t₁ = true → canonHelper t₁ = canonHelper t₂ := by
  intro N
  induction N with
  | zero =>
      intro t₁ t₂ hsize _ _
      exfalso
      cases t₁ <;> simp at hsize
  | succ N ih =>
      intro t₁ t₂ hsize hpe hnd
      cases hpe with
      | null => rfl
      | bool b => rfl
      | num n => rfl
      | str s => rfl
      | arr hf =>
          rename_i xs ys
          rw [show canonHelper (.arr xs) = .arr (canonHelperList xs) from by
            simp [canonHelper]]
          rw [show canonHelper (.arr ys) = .arr (canonHelperList ys) from by
            simp [canonHelper]]
          congr 1
          have hsz : sizeOf xs ≤ N := by simp at hsize; omega
          have hndl : keysNodupBList xs = true := by
            simpa [keysNodupB] using hnd
          clear hnd hsize
          induction hf with
          | nil => rfl
          | cons hxy htail ihtail =>
              rename_i x y xs' ys'
              simp only [keysNodupBList, Bool.and_eq_true] at hndl
              simp only [List.cons.sizeOf_spec] at hsz
              rw [show canonHelperList (x :: xs')
                  = canonHelper x :: canonHelperList xs' from by
                simp [canonHelperList]]
              rw [show canonHelperList (y :: ys')
                  = canonHelper y :: canonHelperList ys' from by
                simp [canonHelperList]]
              rw [ih x y (by omega) hxy hndl.1]
              rw [ihtail (by omega) hndl.2]
      | obj hkeys hvals hperm =>
          rename_i fs gs hs
          rw [show canonHelper (.obj fs)
              = .obj (canonHelperFields (sortFields fs)) from by
            simp [canonHelper]]
          rw [show canonHelper (.obj hs)
              = .obj (canonHelperFields (sortFields hs)) from by
            simp [canonHelper]]
          congr 1
          simp only [keysNodupB, Bool.and_eq_true, decide_eq_true_eq] at hnd
          have hmapeq : fs.map canonEntryMap = gs.map canonEntryMap := by
            have hszf : sizeOf fs ≤ N := by simp at hsize; omega
            have hndf : keysNodupBFields fs = true := hnd.2
            clear hnd hsize hperm
            induction fs generalizing gs with
            | nil =>
                cases gs with
                | nil => rfl
                | cons g gs' => simp at hkeys
            | cons kv fs' ihf =>
                cases gs with
                | nil => simp at hkeys
                | cons g gs' =>
                    simp only [List.map_cons, List.cons.injEq] at hkeys hvals
                    cases hvals with
                    | cons hv htail =>
                        simp only [keysNodupBFields, Bool.and_eq_true] at hndf
                        simp only [List.cons.sizeOf_spec] at hszf
                        simp only [List.map_cons, List.cons.injEq]
                        refine ⟨?_, ?_⟩
                        · have hv2 : canonHelper kv.2 = canonHelper g.2 := by
                            apply ih kv.2 g.2 ?_ hv hndf.1
                            cases kv; simp at hszf ⊢; omega
                          simp [canonEntryMap, hkeys.1, hv2]
                        · exact ihf hkeys.2 htail (by omega) hndf.2
          calc canonHelperFields (sortFields fs)
              = (sortFields fs).map canonEntryMap := canonHelperFields_eq_map _
            _ = sortFields (fs.map canonEntryMap) := sortFields_map_commute fs
            _ = sortFields (hs.map canonEntryMap) := by
                  rw [hmapeq]
                  apply sortFields_perm_eq (hperm.map canonEntryMap)
                  rw [canonEntryMap_keys, ← hkeys]
                  exact hnd.1
            _ = (sortFields hs).map canonEntryMap :=
                  (sortFields_map_commute hs).symm
            _ = canonHelperFields (sortFields hs) :=
                  (canonHelperFields_eq_map _).symm

/-- C4: `canonicalStringify` is a pure function whose output is
independent of map key insertion order: permuting the insertion order of
any object's keys anywhere in the tree (the tree being duplicate-key
free, as every JavaScript object is) leaves the canonical string
unchanged. Keys are serialized in sorted order and array element order
is preserved by construction of `canonHelper`. -/
theorem C4_canonical_insertion_order_independent (t₁ t₂ : Json)
    (hpe : PermEquiv t₁ t₂) (hnd : keysNodupB t₁ = true) :
    canonicalStringify t₁ = canonicalStringify t₂ := by
  unfold canonicalStringify
  rw [canonHelper_permEquiv (sizeOf t₁) t₁ t₂ (le_refl _) hpe hnd]

/-- Witness tree for C4, with keys inserted out of order at two levels. -/
def c4t1 : Json :=
  .obj [("b", .num (.val 1)), ("a", .obj [("y", .null), ("x", .bool true)])]

/-- The same tree as `c4t1` with both objects' insertion orders permuted. -/
def c4t2 : Json :=
  .obj [("a", .obj [("x", .bool true), ("y", .null)]), ("b", .num (.val 1))]

/-- Witness for C4: a concrete two-level key permutation. -/
theorem C4_witness :
    PermEquiv c4t1 c4t2 ∧ keysNodupB c4t1 = true ∧
      canonicalStringify c4t1 = canonicalStringify c4t2 := by
  have hpe : PermEquiv c4t1 c4t2 :=
    @PermEquiv.obj
      [("b", .num (.val 1)), ("a", .obj [("y", .null), ("x", .bool true)])]
      [("b", .num (.val 1)), ("a", .obj [("x", .bool true), ("y", .null)])]
      [("a", .obj [("x", .bool true), ("y", .null)]), ("b", .num (.val 1))]
      rfl
      (List.Forall₂.cons (PermEquiv.num _)
        (List.Forall₂.cons
          (@PermEquiv.obj
            [("y", Json.null), ("x", Json.bool true)]
            [("y", Json.null), ("x", Json.bool true)]
            [("x", Json.bool true), ("y", Json.null)]
            rfl
            (List.Forall₂.cons PermEquiv.null
              (List.Forall₂.cons (PermEquiv.bool true) List.Forall₂.nil))
            (List.Perm.swap _ _ _))
          List.Forall₂.nil))
      (List.Perm.swap _ _ _)
  have hnd : keysNodupB c4t1 = true := by
    simp [c4t1, keysNodupB, keysNodupBFields, keysNodupBList]
  exact ⟨hpe, hnd, C4_canonical_insertion_order_independent c4t1 c4t2 hpe hnd⟩

-- ---------------------------------------------------------------------
-- C1: coalescing — more map and list lemmas
-- ---------------------------------------------------------------------

theorem mapGet_mapSet_self {α : Type} :
    ∀ (m : List (String × α)) (k : String) (v : α),
      mapGet (mapSet m k v) k = some v
  | [], k, v => by simp [mapSet, mapGet, List.find?]
  | p :: rest, k, v => by
      by_cases hpk : p.1 == k
      · simp [mapSet, hpk, mapGet, List.find?]
      · rw [show mapSet (p :: rest) k v = p :: mapSet rest k v from by
          simp [mapSet, hpk]]
        rw [show mapGet (p :: mapSet rest k v) k
            = mapGet (mapSet rest k v) k from by
          simp [mapGet, List.find?, hpk]]
        exact mapGet_mapSet_self rest k v

theorem mapGet_mapSet_ne {α : Type} :
    ∀ (m : List (String × α)) (k k' : String) (v : α), k' ≠ k →
      mapGet (mapSet m k v) k' = mapGet m k'
  | [], k, k', v, h => by
      simp only [mapSet, mapGet, List.find?]
      rw [show (k == k') = false from by simp; exact fun he => h he.symm]
  | p :: rest, k, k', v, h => by
      by_cases hpk : p.1 == k
      · rw [show mapSet (p :: rest) k v = (k, v) :: rest from by
          simp [mapSet, hpk]]
        have hp : p.1 = k := by simpa using hpk
        by_cases hpk' : p.1 == k'
        · exact absurd (by rw [← hp]; simpa using hpk') h.symm
        · simp only [mapGet, List.find?]
          rw [show ((k, v).1 == k') = false from by
            simp; exact fun he => h he.symm]
          rw [show (p.1 == k') = false from by simpa using hpk']
      · rw [show mapSet (p :: rest) k v = p :: mapSet rest k v from by
          simp [mapSet, hpk]]
        by_cases hpk' : p.1 == k'
        · simp [mapGet, List.find?, hpk']
        · simp only [mapGet, List.find?]
          rw [show (p.1 == k') = false from by simpa using hpk']
          exact mapGet_mapSet_ne rest k k' v h

theorem mapGet_mapDelete_ne {α : Type} :
    ∀ (m : List (String × α)) (k k' : String), k' ≠ k →
      mapGet (mapDelete m k) k' = mapGet m k'
  | [], k, k', h => rfl
  | p :: rest, k, k', h => by
      by_cases hpk : p.1 == k
      · rw [show mapDelete (p :: rest) k = rest from by
          simp [mapDelete, List.eraseP_cons, hpk]]
        have hp : p.1 = k := by simpa using hpk
        simp only [mapGet, List.find?]
        rw [show (p.1 == k') = false from by
          simp [hp]; exact fun he => h he.symm]
      · rw [show mapDelete (p :: rest) k = p :: mapDelete rest k from by
          simp [mapDelete, List.eraseP_cons, hpk]]
        by_cases hpk' : p.1 == k'
        · simp [mapGet, List.find?, hpk']
        · simp only [mapGet, List.find?]
          rw [show (p.1 == k') = false from by simpa using hpk']
          exact mapGet_mapDelete_ne rest k k' h

/-- Lookup in a list after `set`, when the set index is in bounds. -/
theorem getElem?_set_lookup {α : Type} {l : List α} {i : Nat} {r : α}
    (hi : l[i]? = some r) (r' : α) (j : Nat) :
    (l.set i r')[j]? = if j = i then some r' else l[j]? := by
  by_cases h : j = i
  · subst h
    rw [if_pos rfl]
    exact List.getElem?_set_self (List.getElem?_eq_some.mp hi).1
  · rw [if_neg h]
    exact List.getElem?_set_ne fun he => h he.symm

theorem getElem?_append_cases {α : Type} {l : List α} {x : α} {c : Nat}
    {y : α} (h : (l ++ [x])[c]? = some y) :
    l[c]? = some y ∨ (c = l.length ∧ y = x) := by
  by_cases hc : c < l.length
  · left; rw [List.getElem?_append_left hc] at h; exact h
  · right
    by_cases hc2 : c = l.length
    · subst hc2
      rw [List.getElem?_concat_length] at h
      exact ⟨rfl, (Option.some.inj h).symm⟩
    · exfalso
      rw [List.getElem?_eq_none (by simp; omega)] at h
      cases h

-- ---------------------------------------------------------------------
-- C1: phase invariants
-- ---------------------------------------------------------------------

/-- Phase-A state of key `k` before any request for `k` has been
processed: no cache entry, no registration, no computation, no queued
write, and every `k`-request still `arrived`. -/
structure InvA0 (k : String) (s : WState) : Prop where
  inflight_none : mapGet s.inflight k = none
  cache_none : mapGet s.cache k = none
  pending : ∀ kv ∈ s.pendingPuts, kv.1 ≠ k
  compsKey : ∀ (c : Nat) (cs : CompSt), s.comps[c]? = some cs → cs.key ≠ k
  reqsPh : ∀ (i : Nat) (r : ReqState), s.reqs[i]? = some r → r.key = k →
    r.phase = .arrived

/-- Phase-A state of key `k` after its driver has registered computation
`c₀` and issued the (single) upstream call, while the computation has not
yet settled. -/
structure InvA1 (k : String) (s : WState) (c₀ : Nat) : Prop where
  inflight_reg : mapGet s.inflight k = some c₀
  comp_pending : s.comps[c₀]? = some ⟨k, none⟩
  cache_none : mapGet s.cache k = none
  pending : ∀ kv ∈ s.pendingPuts, kv.1 ≠ k
  comp_unique : ∀ (c : Nat) (cs : CompSt), s.comps[c]? = some cs →
    cs.key = k → c = c₀
  reqsPh : ∀ (i : Nat) (r : ReqState), s.reqs[i]? = some r → r.key = k →
    r.phase = .arrived ∨ ∃ d, r.phase = .awaiting c₀ d

theorem stepA_invA0 {k : String} {s s' : WState} {l : WLabel}
    (hstep : WStep s l s') (hns : isSettleFor k l = false)
    (hinv : InvA0 k s) :
    (InvA0 k s' ∧ isDriverFor k l = false) ∨
      (∃ c₀, InvA1 k s' c₀ ∧ isDriverFor k l = true) := by
  cases hstep with
  | hit i ki v h1 h2 =>
      left
      have hki : ki ≠ k := fun he => by
        rw [he, hinv.cache_none] at h2; cases h2
      refine ⟨⟨hinv.inflight_none, hinv.cache_none, hinv.pending,
        hinv.compsKey, ?_⟩, rfl⟩
      intro j r hj hkey
      rw [getElem?_set_lookup h1 _ j] at hj
      split at hj
      · exact absurd ((ReqState.mk.injEq _ _ _ _).mp
          (Option.some.inj hj.symm)).1.symm (by rw [hkey]; exact hki)
      · exact hinv.reqsPh j r hj hkey
  | follower i ki c h1 h2 h3 =>
      left
      have hki : ki ≠ k := fun he => by
        rw [he, hinv.inflight_none] at h3; cases h3
      refine ⟨⟨hinv.inflight_none, hinv.cache_none, hinv.pending,
        hinv.compsKey, ?_⟩, rfl⟩
      intro j r hj hkey
      rw [getElem?_set_lookup h1 _ j] at hj
      split at hj
      · exact absurd ((ReqState.mk.injEq _ _ _ _).mp
          (Option.some.inj hj.symm)).1.symm (by rw [hkey]; exact hki)
      · exact hinv.reqsPh j r hj hkey
  | driver i ki h1 h2 h3 =>
      by_cases hki : ki = k
      · subst hki
        right
        refine ⟨s.comps.length, ⟨?_, ?_, hinv.cache_none, hinv.pending,
          ?_, ?_⟩, by simp [isDriverFor]⟩
        · exact mapGet_mapSet_self _ _ _
        · exact List.getElem?_concat_length _ _
        · intro c cs hc hkey
          rcases getElem?_append_cases hc with hold | ⟨hc2, hcs⟩
          · exact absurd hkey (hinv.compsKey c cs hold)
          · exact hc2
        · intro j r hj hkey
          rw [getElem?_set_lookup h1 _ j] at hj
          split at hj
          · right
            exact ⟨true, congrArg ReqState.phase (Option.some.inj hj.symm)⟩
          · left; exact hinv.reqsPh j r hj hkey
      · left
        refine ⟨⟨?_, hinv.cache_none, hinv.pending, ?_, ?_⟩, ?_⟩
        · rw [mapGet_mapSet_ne _ _ _ _ (fun he => hki he.symm)]
          exact hinv.inflight_none
        · intro c cs hc hkey
          rcases getElem?_append_cases hc with hold | ⟨_, hcs⟩
          · exact hinv.compsKey c cs hold hkey
          · rw [hcs] at hkey; exact hki hkey
        · intro j r hj hkey
          rw [getElem?_set_lookup h1 _ j] at hj
          split at hj
          · exact absurd ((ReqState.mk.injEq _ _ _ _).mp
              (Option.some.inj hj.symm)).1.symm (by rw [hkey]; exact hki)
          · exact hinv.reqsPh j r hj hkey
        · simp [isDriverFor]
          intro he
          exact absurd he hki
  | settle c ki outcome h1 =>
      left
      have hki : ki ≠ k := by
        simp [isSettleFor] at hns
        intro he
        exact hns (by simp [he])
      refine ⟨⟨?_, hinv.cache_none, ?_, ?_, hinv.reqsPh⟩, rfl⟩
      · rw [mapGet_mapDelete_ne _ _ _ (fun he => hki he.symm)]
        exact hinv.inflight_none
      · intro kv hkv
        rcases List.mem_append.mp hkv with hold | hnew
        · exact hinv.pending kv hold
        · simp only [cacheWritesOf] at hnew
          split at hnew
          · have : kv = (ki, computeInflightValue outcome) := by simpa using hnew
            rw [this]; exact hki
          · simp at hnew
      · intro c' cs hc' hkey
        rw [getElem?_set_lookup h1 _ c'] at hc'
        split at hc'
        · have : cs = ⟨ki, some (computeInflightValue outcome)⟩ :=
            Option.some.inj hc'.symm
          rw [this] at hkey
          exact hki hkey
        · exact hinv.compsKey c' cs hc' hkey
  | flush ki v rest h1 =>
      left
      have hki : ki ≠ k := hinv.pending (ki, v) (by rw [h1]; simp)
      refine ⟨⟨hinv.inflight_none, ?_, ?_, hinv.compsKey, hinv.reqsPh⟩, rfl⟩
      · rw [mapGet_mapSet_ne _ _ _ _ (fun he => hki he.symm)]
        exact hinv.cache_none
      · intro kv hkv
        exact hinv.pending kv (by rw [h1]; exact List.mem_cons_of_mem _ hkv)
  | respond i ki c d ck v h1 h2 =>
      left
      have hki : ki ≠ k := by
        intro he
        have := hinv.reqsPh i ⟨ki, .awaiting c d⟩ h1 he
        simp at this
      refine ⟨⟨hinv.inflight_none, hinv.cache_none, hinv.pending,
        hinv.compsKey, ?_⟩, rfl⟩
      intro j r hj hkey
      rw [getElem?_set_lookup h1 _ j] at hj
      split at hj
      · exact absurd ((ReqState.mk.injEq _ _ _ _).mp
          (Option.some.inj hj.symm)).1.symm (by rw [hkey]; exact hki)
      · exact hinv.reqsPh j r hj hkey

theorem stepA_invA1 {k : String} {c₀ : Nat} {s s' : WState} {l : WLabel}
    (hstep : WStep s l s') (hns : isSettleFor k l = false)
    (hinv : InvA1 k s c₀) :
    InvA1 k s' c₀ ∧ isDriverFor k l = false := by
  cases hstep with
  | hit i ki v h1 h2 =>
      have hki : ki ≠ k := fun he => by
        rw [he, hinv.cache_none] at h2; cases h2
      refine ⟨⟨hinv.inflight_reg, hinv.comp_pending, hinv.cache_none,
        hinv.pending, hinv.comp_unique, ?_⟩, rfl⟩
      intro j r hj hkey
      rw [getElem?_set_lookup h1 _ j] at hj
      split at hj
      · exact absurd ((ReqState.mk.injEq _ _ _ _).mp
          (Option.some.inj hj.symm)).1.symm (by rw [hkey]; exact hki)
      · exact hinv.reqsPh j r hj hkey
  | follower i ki c h1 h2 h3 =>
      refine ⟨⟨hinv.inflight_reg, hinv.comp_pending, hinv.cache_none,
        hinv.pending, hinv.comp_unique, ?_⟩, rfl⟩
      intro j r hj hkey
      rw [getElem?_set_lookup h1 _ j] at hj
      split at hj
      · by_cases hki : ki = k
        · subst hki
          have hc : c = c₀ := by
            rw [hinv.inflight_reg] at h3
            exact Option.some.inj h3.symm
          right
          refine ⟨false, ?_⟩
          rw [← hc]
          exact congrArg ReqState.phase (Option.some.inj hj.symm)
        · exact absurd ((ReqState.mk.injEq _ _ _ _).mp
            (Option.some.inj hj.symm)).1.symm (by rw [hkey]; exact hki)
      · exact hinv.reqsPh j r hj hkey
  | driver i ki h1 h2 h3 =>
      have hki : ki ≠ k := fun he => by
        rw [he, hinv.inflight_reg] at h3; cases h3
      have hlt : c₀ < s.comps.length :=
        (List.getElem?_eq_some.mp hinv.comp_pending).1
      refine ⟨⟨?_, ?_, hinv.cache_none, hinv.pending, ?_, ?_⟩, ?_⟩
      · rw [mapGet_mapSet_ne _ _ _ _ (fun he => hki he.symm)]
        exact hinv.inflight_reg
      · show (s.comps ++ [⟨ki, none⟩])[c₀]? = some ⟨k, none⟩
        rw [List.getElem?_append_left hlt]
        exact hinv.comp_pending
      · intro c cs hc hkey
        rcases getElem?_append_cases hc with hold | ⟨_, hcs⟩
        · exact hinv.comp_unique c cs hold hkey
        · rw [hcs] at hkey; exact absurd hkey hki
      · intro j r hj hkey
        rw [getElem?_set_lookup h1 _ j] at hj
        split at hj
        · exact absurd ((ReqState.mk.injEq _ _ _ _).mp
            (Option.some.inj hj.symm)).1.symm (by rw [hkey]; exact hki)
        · exact hinv.reqsPh j r hj hkey
      · simp [isDriverFor]
        intro he
        exact absurd he hki
  | settle c ki outcome h1 =>
      have hki : ki ≠ k := by
        simp [isSettleFor] at hns
        intro he
        exact hns (by simp [he])
      have hc : c ≠ c₀ := fun he => by
        rw [he, hinv.comp_pending] at h1
        exact hki (congrArg CompSt.key (Option.some.inj h1)).symm
      refine ⟨⟨?_, ?_, hinv.cache_none, ?_, ?_, hinv.reqsPh⟩, rfl⟩
      · rw [mapGet_mapDelete_ne _ _ _ (fun he => hki he.symm)]
        exact hinv.inflight_reg
      · show (s.comps.set c _)[c₀]? = some ⟨k, none⟩
        rw [List.getElem?_set_ne hc]
        exact hinv.comp_pending
      · intro kv hkv
        rcases List.mem_append.mp hkv with hold | hnew
        · exact hinv.pending kv hold
        · simp only [cacheWritesOf] at hnew
          split at hnew
          · have : kv = (ki, computeInflightValue outcome) := by simpa using hnew
            rw [this]; exact hki
          · simp at hnew
      · intro c' cs hc' hkey
        rw [getElem?_set_lookup h1 _ c'] at hc'
        split at hc'
        · have : cs = ⟨ki, some (computeInflightValue outcome)⟩ :=
            Option.some.inj hc'.symm
          rw [this] at hkey
          exact absurd hkey hki
        · exact hinv.comp_unique c' cs hc' hkey
  | flush ki v rest h1 =>
      have hki : ki ≠ k := hinv.pending (ki, v) (by rw [h1]; simp)
      refine ⟨⟨hinv.inflight_reg, hinv.comp_pending, ?_, ?_,
        hinv.comp_unique, hinv.reqsPh⟩, rfl⟩
      · rw [mapGet_mapSet_ne _ _ _ _ (fun he => hki he.symm)]
        exact hinv.cache_none
      · intro kv hkv
        exact hinv.pending kv (by rw [h1]; exact List.mem_cons_of_mem _ hkv)
  | respond i ki c d ck v h1 h2 =>
      have hki : ki ≠ k := by
        intro he
        rcases hinv.reqsPh i ⟨ki, .awaiting c d⟩ h1 he with harr | ⟨d', haw⟩
        · simp at harr
        · have hc : c = c₀ := by
            have := (Phase.awaiting.injEq _ _ _ _).mp haw
            exact this.1
          rw [hc, hinv.comp_pending] at h2
          have := (CompSt.mk.injEq _ _ _ _).mp (Option.some.inj h2)
          cases this.2
      refine ⟨⟨hinv.inflight_reg, hinv.comp_pending, hinv.cache_none,
        hinv.pending, hinv.comp_unique, ?_⟩, rfl⟩
      intro j r hj hkey
      rw [getElem?_set_lookup h1 _ j] at hj
      split at hj
      · exact absurd ((ReqState.mk.injEq _ _ _ _).mp
          (Option.some.inj hj.symm)).1.symm (by rw [hkey]; exact hki)
      · exact hinv.reqsPh j r hj hkey

theorem execA_invA1 {k : String} {c₀ : Nat} {s : WState} {tr : List WLabel}
    {s' : WState} (hexec : WExec s tr s')
    (hns : ∀ l ∈ tr, isSettleFor k l = false) (hinv : InvA1 k s c₀) :
    InvA1 k s' c₀ ∧ tr.countP (isDriverFor k) = 0 := by
  induction hexec with
  | nil => exact ⟨hinv, rfl⟩
  | cons s l s1 tr s2 hstep _ ih =>
      have h1 := stepA_invA1 hstep (hns l (by simp)) hinv
      have h2 := ih (fun l' hl' => hns l' (by simp [hl'])) h1.1
      refine ⟨h2.1, ?_⟩
      simp [List.countP_cons, h1.2, h2.2]

theorem execA_invA0 {k : String} {s : WState} {tr : List WLabel} {s' : WState}
    (hexec : WExec s tr s') (hns : ∀ l ∈ tr, isSettleFor k l = false)
    (hinv : InvA0 k s) :
    (InvA0 k s' ∧ tr.countP (isDriverFor k) = 0) ∨
      (∃ c₀, InvA1 k s' c₀ ∧ tr.countP (isDriverFor k) = 1) := by
  induction hexec with
  | nil => exact Or.inl ⟨hinv, rfl⟩
  | cons s l s1 tr s2 hstep hrest ih =>
      rcases stepA_invA0 hstep (hns l (by simp)) hinv with ⟨h1, hd⟩ |
        ⟨c₀, h1, hd⟩
      · rcases ih (fun l' hl' => hns l' (by simp [hl'])) h1 with ⟨h2, hc⟩ |
          ⟨c₀, h2, hc⟩
        · exact Or.inl ⟨h2, by simp [List.countP_cons, hd, hc]⟩
        · exact Or.inr ⟨c₀, h2, by simp [List.countP_cons, hd, hc]⟩
      · have h2 := execA_invA1 hrest (fun l' hl' => hns l' (by simp [hl'])) h1
        exact Or.inr ⟨c₀, h2.1, by simp [List.countP_cons, hd, h2.2]⟩

/-- Phase-B state: the single computation `c₀` for key `k` is either
still pending or settled with some value, and every `k`-request is
either awaiting `c₀` or has already responded with exactly the settled
value's status and body. -/
structure InvB (k : String) (c₀ : Nat) (s : WState) : Prop where
  comp_state : s.comps[c₀]? = some ⟨k, none⟩ ∨
    ∃ v : InflightValue, s.comps[c₀]? = some ⟨k, some v⟩
  reqsPh : ∀ (i : Nat) (r : ReqState), s.reqs[i]? = some r → r.key = k →
    (∃ d, r.phase = .awaiting c₀ d) ∨
    (∃ (v : InflightValue) (x : String),
      s.comps[c₀]? = some ⟨k, some v⟩ ∧
      r.phase = .responded v.status v.text x)

theorem stepB_invB {k : String} {c₀ : Nat} {s s' : WState} {l : WLabel}
    (hstep : WStep s l s') (hinv : InvB k c₀ s) :
    InvB k c₀ s' ∧ isDriverFor k l = false := by
  cases hstep with
  | hit i ki v h1 h2 =>
      have hki : ki ≠ k := by
        intro he
        rcases hinv.reqsPh i ⟨ki, .arrived⟩ h1 he with ⟨d, haw⟩ |
          ⟨v', x, _, hresp⟩
        · simp at haw
        · simp at hresp
      refine ⟨⟨hinv.comp_state, ?_⟩, rfl⟩
      intro j r hj hkey
      rw [getElem?_set_lookup h1 _ j] at hj
      split at hj
      · exact absurd ((ReqState.mk.injEq _ _ _ _).mp
          (Option.some.inj hj.symm)).1.symm (by rw [hkey]; exact hki)
      · exact hinv.reqsPh j r hj hkey
  | follower i ki c h1 h2 h3 =>
      have hki : ki ≠ k := by
        intro he
        rcases hinv.reqsPh i ⟨ki, .arrived⟩ h1 he with ⟨d, haw⟩ |
          ⟨v', x, _, hresp⟩
        · simp at haw
        · simp at hresp
      refine ⟨⟨hinv.comp_state, ?_⟩, rfl⟩
      intro j r hj hkey
      rw [getElem?_set_lookup h1 _ j] at hj
      split at hj
      · exact absurd ((ReqState.mk.injEq _ _ _ _).mp
          (Option.some.inj hj.symm)).1.symm (by rw [hkey]; exact hki)
      · exact hinv.reqsPh j r hj hkey
  | driver i ki h1 h2 h3 =>
      have hki : ki ≠ k := by
        intro he
        rcases hinv.reqsPh i ⟨ki, .arrived⟩ h1 he with ⟨d, haw⟩ |
          ⟨v', x, _, hresp⟩
        · simp at haw
        · simp at hresp
      have hlt : c₀ < s.comps.length := by
        rcases hinv.comp_state with hp | ⟨v, hp⟩ <;>
          exact (List.getElem?_eq_some.mp hp).1
      have hpres : (s.comps ++ [⟨ki, none⟩])[c₀]? = s.comps[c₀]? :=
        List.getElem?_append_left hlt
      constructor
      · constructor
        · rw [hpres]; exact hinv.comp_state
        · intro j r hj hkey
          rw [getElem?_set_lookup h1 _ j] at hj
          split at hj
          · exact absurd ((ReqState.mk.injEq _ _ _ _).mp
              (Option.some.inj hj.symm)).1.symm (by rw [hkey]; exact hki)
          · rcases hinv.reqsPh j r hj hkey with haw | ⟨v, x, hc, hresp⟩
            · exact Or.inl haw
            · exact Or.inr ⟨v, x, by rw [hpres]; exact hc, hresp⟩
      · simp [isDriverFor]
        intro he
        exact absurd he hki
  | settle c ki outcome h1 =>
      by_cases hc : c = c₀
      · rw [hc] at h1 ⊢
        have hki : ki = k := by
          rcases hinv.comp_state with hp | ⟨v, hp⟩
          · rw [h1] at hp
            exact congrArg CompSt.key (Option.some.inj hp)
          · rw [h1] at hp
            have := (CompSt.mk.injEq _ _ _ _).mp (Option.some.inj hp)
            cases this.2
        subst hki
        have hset : (s.comps.set c₀ ⟨ki, some
            (computeInflightValue outcome)⟩)[c₀]? = some ⟨ki, some
            (computeInflightValue outcome)⟩ :=
          List.getElem?_set_self (List.getElem?_eq_some.mp h1).1
        refine ⟨⟨Or.inr ⟨_, hset⟩, ?_⟩, rfl⟩
        intro j r hj hkey
        rcases hinv.reqsPh j r hj hkey with haw | ⟨v, x, hcold, _⟩
        · exact Or.inl haw
        · rw [h1] at hcold
          have := (CompSt.mk.injEq _ _ _ _).mp (Option.some.inj hcold)
          cases this.2
      · have hpres : (s.comps.set c ⟨ki, some
            (computeInflightValue outcome)⟩)[c₀]? = s.comps[c₀]? :=
          List.getElem?_set_ne hc
        refine ⟨⟨?_, ?_⟩, rfl⟩
        · rw [hpres]; exact hinv.comp_state
        · intro j r hj hkey
          rcases hinv.reqsPh j r hj hkey with haw | ⟨v, x, hcold, hresp⟩
          · exact Or.inl haw
          · exact Or.inr ⟨v, x, by rw [hpres]; exact hcold, hresp⟩
  | flush ki v rest h1 => exact ⟨⟨hinv.comp_state, hinv.reqsPh⟩, rfl⟩
  | respond i ki c d ck v h1 h2 =>
      constructor
      swap
      · rfl
      by_cases hki : ki = k
      · subst hki
        have hcc : c = c₀ := by
          rcases hinv.reqsPh i ⟨ki, .awaiting c d⟩ h1 rfl with ⟨d', haw⟩ |
            ⟨v', x, _, hresp⟩
          · exact ((Phase.awaiting.injEq _ _ _ _).mp haw).1
          · simp at hresp
        rw [hcc] at h2
        obtain ⟨v', hsettled⟩ : ∃ v', s.comps[c₀]? = some ⟨ki, some v'⟩ := by
          rcases hinv.comp_state with hp | ⟨v', hp⟩
          · rw [hp] at h2
            have := (CompSt.mk.injEq _ _ _ _).mp (Option.some.inj h2)
            cases this.2
          · exact ⟨v', hp⟩
        have hvv : v = v' := by
          rw [hsettled] at h2
          have := (CompSt.mk.injEq _ _ _ _).mp (Option.some.inj h2)
          exact (Option.some.inj this.2).symm
        constructor
        · exact hinv.comp_state
        · intro j r hj hkey
          rw [getElem?_set_lookup h1 _ j] at hj
          split at hj
          · right
            refine ⟨v', (if d then "MISS" else "COALESCED"), hsettled, ?_⟩
            rw [← hvv]
            exact congrArg ReqState.phase (Option.some.inj hj.symm)
          · exact hinv.reqsPh j r hj hkey
      · constructor
        · exact hinv.comp_state
        · intro j r hj hkey
          rw [getElem?_set_lookup h1 _ j] at hj
          split at hj
          · exact absurd ((ReqState.mk.injEq _ _ _ _).mp
              (Option.some.inj hj.symm)).1.symm (by rw [hkey]; exact hki)
          · exact hinv.reqsPh j r hj hkey

theorem execB_invB {k : String} {c₀ : Nat} {s : WState} {tr : List WLabel}
    {s' : WState} (hexec : WExec s tr s') (hinv : InvB k c₀ s) :
    InvB k c₀ s' ∧ tr.countP (isDriverFor k) = 0 := by
  induction hexec with
  | nil => exact ⟨hinv, rfl⟩
  | cons s l s1 tr s2 hstep _ ih =>
      have h1 := stepB_invB hstep hinv
      have h2 := ih h1.1
      exact ⟨h2.1, by simp [List.countP_cons, h1.2, h2.2]⟩

/-- C1: coalescing of concurrent identical requests. Requests carrying
identical query and variables share the cache key
`hashKeyOf q (clampPagination vars)`. Take any execution split into a
phase `trA` in which every request for that key performs its
post-`cache.match` processing segment (no computation for the key
settles during `trA`, which is what "concurrent" means in the cooperative
model), followed by an arbitrary continuation `trB`. If the durable
cache starts without the key and at least one request for the key
exists, then the whole execution issues exactly one upstream call for
the key, and any two requests for the key that have responded carry
identical status and body. -/
theorem C1_coalescing (q : String) (vars : Json) (k : String)
    (hk : k = hashKeyOf q (clampPagination vars)) (reqs : List ReqState)
    (cache : List (String × InflightValue)) (trA trB : List WLabel)
    (s₁ s₂ : WState)
    (hcache : mapGet cache k = none)
    (hexecA : WExec (initState reqs cache) trA s₁)
    (hexecB : WExec s₁ trB s₂)
    (harrived : ∀ (i : Nat) (r : ReqState), reqs[i]? = some r → r.key = k →
      r.phase = .arrived)
    (hnsA : ∀ l ∈ trA, isSettleFor k l = false)
    (hproc : ∀ (i : Nat) (r : ReqState), s₁.reqs[i]? = some r → r.key = k →
      r.phase ≠ .arrived)
    (hexists : ∃ (i : Nat) (r : ReqState), s₁.reqs[i]? = some r ∧ r.key = k) :
    upstreamCallCount k (trA ++ trB) = 1 ∧
    (∀ (i j : Nat) (ri rj : ReqState) (sti stj : Nat)
      (txi txj xi xj : String),
      s₂.reqs[i]? = some ri → ri.key = k → ri.phase = .responded sti txi xi →
      s₂.reqs[j]? = some rj → rj.key = k → rj.phase = .responded stj txj xj →
      sti = stj ∧ txi = txj) := by
  have hinv0 : InvA0 k (initState reqs cache) := by
    refine ⟨rfl, hcache, ?_, ?_, ?_⟩
    · intro kv hkv; simp [initState] at hkv
    · intro c cs hc; simp [initState] at hc
    · intro i r hi hkey
      exact harrived i r (by simpa [initState] using hi) hkey
  rcases execA_invA0 hexecA hnsA hinv0 with ⟨hA0, _⟩ | ⟨c₀, hA1, hcntA⟩
  · obtain ⟨i, r, hi, hkey⟩ := hexists
    exact absurd (hA0.reqsPh i r hi hkey) (hproc i r hi hkey)
  · have hinvB : InvB k c₀ s₁ := by
      refine ⟨Or.inl hA1.comp_pending, ?_⟩
      intro i r hi hkey
      rcases hA1.reqsPh i r hi hkey with harr | ⟨d, haw⟩
      · exact absurd harr (hproc i r hi hkey)
      · exact Or.inl ⟨d, haw⟩
    obtain ⟨hB, hcntB⟩ := execB_invB hexecB hinvB
    constructor
    · show (trA ++ trB).countP (isDriverFor k) = 1
      rw [List.countP_append, hcntA, hcntB]
    · intro i j ri rj sti stj txi txj xi xj hi hki hpi hj hkj hpj
      rcases hB.reqsPh i ri hi hki with ⟨d, haw⟩ | ⟨v, x, hc, hresp⟩
      · rw [hpi] at haw; simp at haw
      · rcases hB.reqsPh j rj hj hkj with ⟨d, haw⟩ | ⟨v', x', hc', hresp'⟩
        · rw [hpj] at haw; simp at haw
        · have hvv : v = v' := by
            rw [hc] at hc'
            have := (CompSt.mk.injEq _ _ _ _).mp (Option.some.inj hc')
            exact Option.some.inj this.2
          rw [hpi] at hresp
          rw [hpj] at hresp'
          have e1 := (Phase.responded.injEq _ _ _ _ _ _).mp hresp
          have e2 := (Phase.responded.injEq _ _ _ _ _ _).mp hresp'
          refine ⟨?_, ?_⟩
          · rw [e1.1, e2.1, hvv]
          · rw [e1.2.1, e2.2.1, hvv]

/-- Witness query/variables for C1. -/
def c1q : String := "query Q \x7b items \x7d"

def c1vars : Json := Json.obj []

def c1key : String := hashKeyOf c1q (clampPagination c1vars)

def c1resp : UpstreamResp :=
  { status := 200, contentType := some "application/json", text := "\x7b\x7d" }

def c1val : InflightValue := computeInflightValue (.ok c1resp)

/-- Witness for C1: two concurrent requests with identical query and
variables; both process before the single computation settles; exactly
one upstream call is counted and both responses agree. -/
theorem C1_witness :
    (let s₂ : WState :=
      { reqs := [⟨c1key, .responded c1val.status c1val.text "MISS"⟩,
          ⟨c1key, .responded c1val.status c1val.text "COALESCED"⟩],
        inflight := mapDelete (mapSet [] c1key 0) c1key,
        comps := [⟨c1key, some c1val⟩], cache := [],
        pendingPuts := cacheWritesOf c1key c1val }
     upstreamCallCount c1key
        ([.driver 0 c1key, .follower 1] ++
          [.settle 0 c1key (.ok c1resp), .respond 0, .respond 1]) = 1 ∧
     (∀ (i j : Nat) (ri rj : ReqState) (sti stj : Nat)
        (txi txj xi xj : String),
        s₂.reqs[i]? = some ri → ri.key = c1key →
        ri.phase = .responded sti txi xi →
        s₂.reqs[j]? = some rj → rj.key = c1key →
        rj.phase = .responded stj txj xj →
        sti = stj ∧ txi = txj)) := by
  refine C1_coalescing c1q c1vars c1key rfl
    [⟨c1key, .arrived⟩, ⟨c1key, .arrived⟩] []
    [.driver 0 c1key, .follower 1]
    [.settle 0 c1key (.ok c1resp), .respond 0, .respond 1]
    { reqs := [⟨c1key, .awaiting 0 true⟩, ⟨c1key, .awaiting 0 false⟩],
      inflight := mapSet [] c1key 0, comps := [⟨c1key, none⟩],
      cache := [], pendingPuts := [] }
    _ rfl ?_ ?_ ?_ ?_ ?_ ?_
  · exact WExec.cons _ _ _ _ _ (WStep.driver _ 0 c1key rfl rfl rfl)
      (WExec.cons _ _ _ _ _
        (WStep.follower _ 1 c1key 0 rfl rfl (mapGet_mapSet_self [] c1key 0))
        (WExec.nil _))
  · exact WExec.cons _ _ _ _ _ (WStep.settle _ 0 c1key (.ok c1resp) rfl)
      (WExec.cons _ _ _ _ _ (WStep.respond _ 0 c1key 0 true c1key c1val rfl rfl)
        (WExec.cons _ _ _ _ _
          (WStep.respond _ 1 c1key 0 false c1key c1val rfl rfl)
          (WExec.nil _)))
  · intro i r hi hkey
    rcases i with _ | _ | n <;> simp_all <;> rw [← hi]
  · intro l hl
    simp at hl
    rcases hl with rfl | rfl <;> rfl
  · intro i r hi hkey
    rcases i with _ | _ | n <;> simp_all <;> rw [← hi] <;> simp
  · exact ⟨0, ⟨c1key, .awaiting 0 true⟩, rfl, rfl⟩

end Ppopgi
